import Mathlib

/-!
Verification of the SiriForm agent form-filling engine.

The core engine (field-path merger `update_form_data`, schema validator
`validate_field`, fuzzy resolver, extraction adapter and clarification
policy) is specified in the repository's architecture document; the
frontend utilities (`isFieldFilled`, `calculateFormProgress`) are
translated from src/frontend/src/utils/formUtils.ts.
-/

set_option autoImplicit false

/-- Dynamically-typed form value: the closed tagged union
{null, undefined, string, number, boolean, sequence, mapping} used both by
the backend form state and by the frontend utilities.  Numbers are
modelled as rationals. -/
inductive Value where
  | vNull : Value
  | vUndefined : Value
  | vStr : String → Value
  | vNum : ℚ → Value
  | vBool : Bool → Value
  | vArr : List Value → Value
  | vObj : List (String × Value) → Value
  deriving Repr, BEq

/-- FormData: mapping field name → value, modelled as an insertion-ordered
association list with distinct keys (a JS object / Python dict). -/
abbrev FormData := List (String × Value)

/-- Look up the value stored under a key in an association list. -/
def getKey (fd : FormData) (k : String) : Option Value :=
  match fd with
  | [] => none
  | (a, v) :: rest => if a = k then some v else getKey rest k

/-- Set a key to a value in an association list, replacing in place when
the key is present and appending otherwise (JS object assignment). -/
def setKey (fd : FormData) (k : String) (v : Value) : FormData :=
  match fd with
  | [] => [(k, v)]
  | (a, w) :: rest => if a = k then (a, v) :: rest else (a, w) :: setKey rest k v

/-- Path segment: a bare field name addresses an object key; a name with
an index addresses the element at that index of the array stored under
the name. -/
structure Seg where
  name : String
  idx : Option Nat
  deriving Repr, DecidableEq

/-- FieldPath: ordered sequence of segments addressing a location in
nested form state. -/
abbrev FieldPath := List Seg

/-- Error taxonomy of the merge operation: a malformed or out-of-range
field path is a fatal PathResolutionError. -/
inductive MergeError where
  | pathResolutionError : String → MergeError
  deriving Repr, DecidableEq

/-- Schema kinds a property can declare. -/
inductive Kind where
  | str | int | num | bool | arr | obj
  deriving Repr, DecidableEq

/-- Value formats a string property can declare. -/
inductive Format where
  | date | time | email | none
  deriving Repr, DecidableEq

/-- Setting a value at the terminal segment of a path: replace semantics
for scalars, shallow-merge semantics for object-shaped elements so
sibling keys already set are preserved. -/
def terminalSet (old : Option Value) (v : Value) : Value :=
  match old, v with
  | some (Value.vObj o), Value.vObj n =>
      Value.vObj (n.foldl (fun acc kv => setKey acc kv.1 kv.2) o)
  | _, _ => v

/-- Current array stored under a key: an absent key stands for the empty
array that the merger creates before descending; a present non-array
value is a container-kind mismatch (`none`). -/
def arrAt (fd : FormData) (name : String) : Option (List Value) :=
  match getKey fd name with
  | Option.none => some []
  | some (Value.vArr xs) => some xs
  | some _ => Option.none

/-- Modelled from the spec: the backend merge tool `update_form_data`
(src/backend app/agent/tools/form_writer.py is absent from the tree; its
contract is §4.2 of the architecture notes).  The path is walked segment
by segment in lock-step with the form state; the container kind expected
at each depth is the one the segment shape declares (bare name → object,
indexed name → array), matching the schema lock-step of the spec since a
well-formed path agrees with the schema at every depth.  A missing key is
created as an empty container before descending; an array index `i` with
`i < length` replaces in place, `i = length` appends, and `i > length`
fails with PathResolutionError; a kind mismatch between the path and the
stored value is a malformed path, also a PathResolutionError. -/
def update_form_data (fd : FormData) (path : FieldPath) (v : Value) :
    Except MergeError FormData :=
  match path with
  | [] => Except.error (MergeError.pathResolutionError "empty field path")
  | ⟨name, Option.none⟩ :: rest =>
    match rest with
    | [] => Except.ok (setKey fd name (terminalSet (getKey fd name) v))
    | _ :: _ =>
      match getKey fd name with
      | Option.none =>
          (update_form_data [] rest v).map (fun o2 => setKey fd name (Value.vObj o2))
      | some (Value.vObj o) =>
          (update_form_data o rest v).map (fun o2 => setKey fd name (Value.vObj o2))
      | some _ => Except.error (MergeError.pathResolutionError "expected object container")
  | ⟨name, some i⟩ :: rest =>
    match arrAt fd name with
    | Option.none => Except.error (MergeError.pathResolutionError "expected array container")
    | some xs =>
      match rest with
      | [] =>
        if h : i < xs.length then
          Except.ok (setKey fd name
            (Value.vArr (xs.set i (terminalSet (some (xs.get ⟨i, h⟩)) v))))
        else if i = xs.length then
          Except.ok (setKey fd name (Value.vArr (xs ++ [v])))
        else Except.error (MergeError.pathResolutionError "array index too large")
      | _ :: _ =>
        if h : i < xs.length then
          match xs.get ⟨i, h⟩ with
          | Value.vObj o =>
              (update_form_data o rest v).map
                (fun o2 => setKey fd name (Value.vArr (xs.set i (Value.vObj o2))))
          | _ => Except.error (MergeError.pathResolutionError "expected object element")
        else if i = xs.length then
          (update_form_data [] rest v).map
            (fun o2 => setKey fd name (Value.vArr (xs ++ [Value.vObj o2])))
        else Except.error (MergeError.pathResolutionError "array index too large")

/-- Read the value addressed by a field path relative to a value, `none`
when the address does not resolve (missing key, out-of-range index, or
container-kind mismatch). -/
def valPath (w : Value) (q : FieldPath) : Option Value :=
  match q with
  | [] => some w
  | ⟨name, Option.none⟩ :: rest =>
    match w with
    | Value.vObj o =>
      match getKey o name with
      | some u => valPath u rest
      | Option.none => Option.none
    | _ => Option.none
  | ⟨name, some i⟩ :: rest =>
    match w with
    | Value.vObj o =>
      match getKey o name with
      | some (Value.vArr xs) =>
        if h : i < xs.length then valPath (xs.get ⟨i, h⟩) rest else Option.none
      | _ => Option.none
    | _ => Option.none

/-- Read the value addressed by a field path inside form state. -/
def getPath (fd : FormData) (q : FieldPath) : Option Value :=
  valPath (Value.vObj fd) q

/-- Divergence of two field paths: `divergesB p q` holds when, at the
first position where they disagree, the segments carry different names,
or the same name with two different array indices.  An address diverging
from the merge path is off the path, including a sibling key inside an
object-shaped array element. -/
def divergesB (p q : FieldPath) : Bool :=
  match p, q with
  | [], _ => false
  | _, [] => false
  | s :: p2, t :: q2 =>
    if s.name = t.name then
      match s.idx, t.idx with
      | some i, some j => if i = j then divergesB p2 q2 else true
      | Option.none, Option.none => divergesB p2 q2
      | _, _ => false
    else true

/-- Scalar values: not object-shaped (and not array-shaped), so the
terminal set is a plain replacement. -/
def isScalar (v : Value) : Bool :=
  match v with
  | Value.vObj _ => false
  | Value.vArr _ => false
  | _ => true

/-- Minimal regular-expression abstract syntax covering the schema
patterns used by the form specs (literals, digit classes, concatenation,
alternation, repetition). -/
inductive Regex where
  | fail : Regex
  | eps : Regex
  | lit : Char → Regex
  | digit : Regex
  | cat : Regex → Regex → Regex
  | alt : Regex → Regex → Regex
  | star : Regex → Regex
  | rep : Regex → Nat → Regex
  deriving Repr

/-- Nullability: whether the regex accepts the empty string. -/
def nullable : Regex → Bool
  | Regex.fail => false
  | Regex.eps => true
  | Regex.lit _ => false
  | Regex.digit => false
  | Regex.cat a b => nullable a && nullable b
  | Regex.alt a b => nullable a || nullable b
  | Regex.star _ => true
  | Regex.rep a n => (n == 0) || nullable a

/-- Brzozowski derivative of a regex with respect to one character. -/
def rderiv : Regex → Char → Regex
  | Regex.fail, _ => Regex.fail
  | Regex.eps, _ => Regex.fail
  | Regex.lit c, d => if c = d then Regex.eps else Regex.fail
  | Regex.digit, d => if d.isDigit then Regex.eps else Regex.fail
  | Regex.cat a b, d =>
    if nullable a then Regex.alt (Regex.cat (rderiv a d) b) (rderiv b d)
    else Regex.cat (rderiv a d) b
  | Regex.alt a b, d => Regex.alt (rderiv a d) (rderiv b d)
  | Regex.star a, d => Regex.cat (rderiv a d) (Regex.star a)
  | Regex.rep a n, d =>
    match n with
    | 0 => Regex.fail
    | Nat.succ m => Regex.cat (rderiv a d) (Regex.rep a m)

/-- Full (anchored) regex match of a whole string, via derivatives. -/
def rmatch (r : Regex) (s : String) : Bool :=
  nullable (s.toList.foldl rderiv r)

/-- PropertySpec: a property specification drawn from a form schema,
with kind, optional regex pattern (kept with its source text so error
messages can echo it), enum, length/range/arity bounds, format, and the
nested item spec / object properties for array and object kinds. -/
inductive PropertySpec where
  | mk :
    Kind →
    Option (String × Regex) →
    Option (List Value) →
    Option Nat → Option Nat →
    Option ℚ → Option ℚ →
    Option Nat → Option Nat →
    Format →
    Option PropertySpec →
    List (String × PropertySpec) →
    PropertySpec

/-- Declared kind of a property specification. -/
def PropertySpec.kind : PropertySpec → Kind
  | PropertySpec.mk k _ _ _ _ _ _ _ _ _ _ _ => k

/-- Declared enum members of a property specification, when any. -/
def PropertySpec.enumVals : PropertySpec → Option (List Value)
  | PropertySpec.mk _ _ e _ _ _ _ _ _ _ _ _ => e

/-- FormSchema: field name → property spec (insertion order = display
order) plus the set of required field names. -/
structure FormSchema where
  properties : List (String × PropertySpec)
  required : List String

/-- Look up the property spec a schema declares for a field name. -/
def lookupSpec (schema : FormSchema) (name : String) : Option PropertySpec :=
  (schema.properties.find? (fun p => p.1 == name)).map Prod.snd

/-- Kind agreement between a dynamic value and a declared schema kind;
an integer kind additionally requires an integral number. -/
def matchesKind (v : Value) (k : Kind) : Bool :=
  match v, k with
  | Value.vStr _, Kind.str => true
  | Value.vNum q, Kind.int => decide (q.den = 1)
  | Value.vNum _, Kind.num => true
  | Value.vBool _, Kind.bool => true
  | Value.vArr _, Kind.arr => true
  | Value.vObj _, Kind.obj => true
  | _, _ => false

/-- Leap-year test of the Gregorian calendar. -/
def isLeap (y : Nat) : Bool :=
  decide ((y % 4 = 0 ∧ y % 100 ≠ 0) ∨ y % 400 = 0)

/-- Number of days of a month in a given year. -/
def daysInMonth (y m : Nat) : Nat :=
  if m = 2 then (if isLeap y then 29 else 28)
  else if m = 4 ∨ m = 6 ∨ m = 9 ∨ m = 11 then 30
  else 31

/-- Calendar-date check of a YYYY-MM-DD string. -/
def isValidDate (s : String) : Bool :=
  match s.splitOn "-" with
  | [y, m, d] =>
    decide (y.length = 4) && decide (m.length = 2) && decide (d.length = 2) &&
    (match y.toNat?, m.toNat?, d.toNat? with
     | some yy, some mm, some dd =>
       decide (1 ≤ mm) && decide (mm ≤ 12) && decide (1 ≤ dd) && decide (dd ≤ daysInMonth yy mm)
     | _, _, _ => false)
  | _ => false

/-- Twenty-four-hour HH:MM check. -/
def isValidTime (s : String) : Bool :=
  match s.splitOn ":" with
  | [h, mi] =>
    decide (h.length = 2) && decide (mi.length = 2) &&
    (match h.toNat?, mi.toNat? with
     | some hh, some mm => decide (hh ≤ 23) && decide (mm ≤ 59)
     | _, _ => false)
  | _ => false

/-- Syntactic email check: one @ splitting two nonempty parts, with a dot
in the domain part. -/
def isValidEmail (s : String) : Bool :=
  match s.splitOn "@" with
  | [l, r] => decide (0 < l.length) && decide (0 < r.length) && r.toList.contains '.'
  | _ => false

/-- ValidationOutcome of one field: valid, or exactly one specific error
kind of the taxonomy; a pattern mismatch carries the pattern text so
that the rendered message echoes the pattern. -/
inductive VResult where
  | valid : VResult
  | missingRequired : VResult
  | typeMismatch : VResult
  | patternMismatch : String → VResult
  | notInEnum : VResult
  | lengthOutOfRange : VResult
  | rangeOutOfRange : VResult
  | arityOutOfRange : VResult
  | formatInvalid : VResult
  deriving Repr, DecidableEq

/-- String-specific validation rules after the pattern rule: enum
membership, length bounds, then format. -/
def stringChecks (s : String) (enumVals : Option (List Value))
    (minL maxL : Option Nat) (fmt : Format) : VResult :=
  if (match enumVals with
      | some es => !(es.contains (Value.vStr s))
      | Option.none => false) then VResult.notInEnum
  else if (match minL with
      | some lo => decide (s.length < lo)
      | Option.none => false) then VResult.lengthOutOfRange
  else if (match maxL with
      | some hi => decide (hi < s.length)
      | Option.none => false) then VResult.lengthOutOfRange
  else
    match fmt with
    | Format.date => if isValidDate s then VResult.valid else VResult.formatInvalid
    | Format.time => if isValidTime s then VResult.valid else VResult.formatInvalid
    | Format.email => if isValidEmail s then VResult.valid else VResult.formatInvalid
    | Format.none => VResult.valid

mutual

/-- Modelled from the spec: the per-value half of the backend validator
tool `validate_field` (src/backend app/agent/tools/validator.py is
absent from the tree; its contract is §4.1 of the architecture notes).
Rules applied in order with a short-circuit on the first failure:
kind, string pattern/enum/length, numeric range, array arity with
recursive element validation, format. -/
def validateValue (v : Value) (ps : PropertySpec) : VResult :=
  match ps with
  | PropertySpec.mk kind pat enumVals minL maxL minN maxN minI maxI fmt ispec _props =>
    if !matchesKind v kind then VResult.typeMismatch
    else
      match v with
      | Value.vStr s =>
        match pat with
        | some pr =>
          if !rmatch pr.2 s then VResult.patternMismatch pr.1
          else stringChecks s enumVals minL maxL fmt
        | Option.none => stringChecks s enumVals minL maxL fmt
      | Value.vNum q =>
        if (match minN with
            | some lo => decide (q < lo)
            | Option.none => false) then VResult.rangeOutOfRange
        else if (match maxN with
            | some hi => decide (hi < q)
            | Option.none => false) then VResult.rangeOutOfRange
        else VResult.valid
      | Value.vArr xs =>
        if (match minI with
            | some lo => decide (xs.length < lo)
            | Option.none => false) then VResult.arityOutOfRange
        else if (match maxI with
            | some hi => decide (hi < xs.length)
            | Option.none => false) then VResult.arityOutOfRange
        else
          match ispec with
          | some isp => validateElems xs isp
          | Option.none => VResult.valid
      | _ => VResult.valid
termination_by (sizeOf ps, 0)

/-- Recursive validation of every array element against the item spec,
short-circuiting on the first failing element. -/
def validateElems (xs : List Value) (isp : PropertySpec) : VResult :=
  match xs with
  | [] => VResult.valid
  | x :: rest =>
    match validateValue x isp with
    | VResult.valid => validateElems rest isp
    | e => e
termination_by (sizeOf isp, 1 + sizeOf xs)

end

/-- Absent or empty value, as used by the required-field rule. -/
def isEmptyValue (v : Option Value) : Bool :=
  match v with
  | Option.none => true
  | some Value.vNull => true
  | some Value.vUndefined => true
  | some (Value.vStr s) => decide (s = "")
  | some _ => false

/-- Modelled from the spec: the backend validator tool `validate_field`
(src/backend app/agent/tools/validator.py is absent from the tree; its
contract is §4.1 of the architecture notes).  Rule (1): a required field
that is absent or empty is a MissingRequired failure; an absent optional
field is always valid; a present value is checked by `validateValue`
against the property spec the schema declares for the field. -/
def validate_field (name : String) (v : Option Value) (schema : FormSchema) : VResult :=
  if schema.required.contains name && isEmptyValue v then VResult.missingRequired
  else
    match v with
    | Option.none => VResult.valid
    | some w =>
      match lookupSpec schema name with
      | some ps => validateValue w ps
      | Option.none => VResult.valid

/-- Check whether a field value is filled (not empty); translated from
isFieldFilled in src/frontend/src/utils/formUtils.ts. -/
def isFieldFilled (value : Value) : Bool :=
  match value with
  | Value.vNull => false
  | Value.vUndefined => false
  | Value.vStr s => decide (0 < s.trim.length)
  | Value.vNum _ => true
  | Value.vBool _ => true
  | Value.vArr xs => decide (0 < xs.length)
  | Value.vObj fs => decide (0 < fs.length)

/-- Form completion progress record; translated from FormProgress as used
by calculateFormProgress in src/frontend/src/utils/formUtils.ts. -/
structure FormProgress where
  totalFields : Nat
  filledFields : Nat
  requiredFields : Nat
  filledRequiredFields : Nat
  percentage : ℤ
  deriving Repr, DecidableEq

/-- JavaScript Math.round on a nonnegative-or-arbitrary rational: the
half-up rounding ⌊q + 1/2⌋. -/
def jsRound (q : ℚ) : ℤ := ⌊q + 1/2⌋

/-- Calculate form completion progress; translated from
calculateFormProgress in src/frontend/src/utils/formUtils.ts.  The
percentage is based on required fields when the schema declares any,
otherwise on all fields, and is capped at 100. -/
def calculateFormProgress (formData : FormData) (schema : FormSchema) : FormProgress :=
  let properties := schema.properties
  let required := schema.required
  let totalFields := properties.length
  let requiredFields := required.length
  let filledFields := (formData.filter (fun kv => isFieldFilled kv.2)).length
  let filledRequiredFields :=
    (formData.filter (fun kv => isFieldFilled kv.2 && required.contains kv.1)).length
  let percentage : ℤ :=
    if 0 < requiredFields then jsRound ((filledRequiredFields : ℚ) / (requiredFields : ℚ) * 100)
    else jsRound ((filledFields : ℚ) / (totalFields : ℚ) * 100)
  ⟨totalFields, filledFields, requiredFields, filledRequiredFields, min percentage 100⟩

/-- Candidate canonical value of a closed candidate list. -/
structure Candidate where
  canonicalValue : String
  label : String
  deriving Repr, DecidableEq

/-- FuzzyMatch: a ranked candidate with its confidence in [0,1]. -/
structure FuzzyMatch where
  canonicalValue : String
  displayLabel : String
  confidence : ℚ
  deriving Repr, DecidableEq

/-- Length of a longest common subsequence of two character lists. -/
def lcsLen : List Char → List Char → Nat
  | [], _ => 0
  | _ :: _, [] => 0
  | a :: as, b :: bs =>
    if a = b then lcsLen as bs + 1
    else max (lcsLen (a :: as) bs) (lcsLen as (b :: bs))
termination_by x y => x.length + y.length

/-- Normalized string-similarity ratio in [0,1]: the
longest-common-subsequence ratio 2·lcs/(|a|+|b|) (SequenceMatcher
style), and 1 for two empty strings. -/
def similarity (a b : String) : ℚ :=
  let la := a.toList
  let lb := b.toList
  if la.length + lb.length = 0 then 1
  else (2 * (lcsLen la lb : ℚ)) / ((la.length : ℚ) + (lb.length : ℚ))

/-- Modelled from the spec: per-candidate confidence of the fuzzy
resolver (src/backend app/agent/tools/lookup.py is absent from the
tree; its contract is §4.3 of the architecture notes).  Exact
case-insensitive equality with the label short-circuits to 1.0,
otherwise the normalized similarity ratio against the label. -/
def scoreCandidate (query : String) (c : Candidate) : ℚ :=
  if query.toLower = c.label.toLower then 1 else similarity query c.label

/-- Insert a match into a descending-by-confidence list, in front of the
first strictly smaller entry, so earlier candidates stay in front of
later equal-confidence candidates. -/
def insertDesc (m : FuzzyMatch) : List FuzzyMatch → List FuzzyMatch
  | [] => [m]
  | x :: xs => if x.confidence ≤ m.confidence then m :: x :: xs else x :: insertDesc m xs

/-- Stable sort by descending confidence. -/
def sortDesc (ms : List FuzzyMatch) : List FuzzyMatch := ms.foldr insertDesc []

/-- Modelled from the spec: the fuzzy resolver `resolve` backing the
`lookup_information` tool (source file absent from the tree; contract
§4.3).  Every candidate is scored, candidates scoring at or above the
threshold are kept, sorted by descending confidence with ties in
original candidate order. -/
def resolve (query : String) (candidates : List Candidate) (threshold : ℚ) :
    List FuzzyMatch :=
  let scored := candidates.map
    (fun c => FuzzyMatch.mk c.canonicalValue c.label (scoreCandidate query c))
  sortDesc (scored.filter (fun m => threshold ≤ m.confidence))

/-- Raw extractor output for one field: a loosely-typed value with the
per-field confidence the extractor reported. -/
structure RawField where
  name : String
  value : Value
  confidence : ℚ

/-- Raw output of the external extraction provider: field guesses plus
the fields the provider flagged as ambiguous. -/
structure RawOutput where
  fields : List RawField
  flaggedAmbiguous : List String

/-- ExtractionResult: normalized value guesses, aggregate confidence and
ambiguity flags, produced fresh per user turn. -/
structure ExtractionResult where
  values : List (String × Value)
  confidence : ℚ
  ambiguousFields : List String

/-- Numeric reading of a stringly-typed value. -/
def parseNumeric (s : String) : Option ℚ :=
  (s.toInt?).map (fun n => (n : ℚ))

/-- Coercion of a raw value into a declared schema kind: a value of the
right kind passes through, a numeric string becomes a number, anything
else cannot be coerced (SchemaMismatch, the field is omitted). -/
def coerceValue (v : Value) (k : Kind) : Option Value :=
  if matchesKind v k then some v
  else
    match v, k with
    | Value.vStr s, Kind.int => (parseNumeric s).map Value.vNum
    | Value.vStr s, Kind.num => (parseNumeric s).map Value.vNum
    | _, _ => Option.none

/-- Minimum of a list of rationals, 0 for the empty list. -/
def listMinQ (xs : List ℚ) : ℚ :=
  match xs with
  | [] => 0
  | x :: rest => rest.foldl min x

/-- Modelled from the spec: the extraction adapter `adapt` (§4.4 of the
architecture notes; no backend source under the tree).  Raw fields that
overlap the schema are kept and coerced; the aggregate confidence is the
minimum — not the average — of the per-field confidences reported for
them; ambiguous fields are those the extractor flagged plus enum-typed
fields whose coerced value matches no enum member; with no overlapping
field at all the result has zero fields and confidence 0.0. -/
def adapt (raw : RawOutput) (schema : FormSchema) : ExtractionResult :=
  let overlapping := raw.fields.filter (fun f => (lookupSpec schema f.name).isSome)
  match overlapping with
  | [] => ⟨[], 0, []⟩
  | f0 :: rest =>
    let kept := f0 :: rest
    let vals := kept.filterMap (fun f =>
      match lookupSpec schema f.name with
      | some ps => (coerceValue f.value ps.kind).map (fun w => (f.name, w))
      | Option.none => Option.none)
    let conf := listMinQ (kept.map RawField.confidence)
    let enumAmbig := kept.filterMap (fun f =>
      match lookupSpec schema f.name with
      | some ps =>
        match ps.enumVals with
        | some es =>
          match coerceValue f.value ps.kind with
          | some w => if es.contains w then Option.none else some f.name
          | Option.none => Option.none
        | Option.none => Option.none
      | Option.none => Option.none)
    ⟨vals, conf, raw.flaggedAmbiguous ++ enumAmbig⟩

namespace ClarificationPolicy

/-- Default confidence threshold of the clarification branch, an injected
configuration parameter rather than a literal. -/
def defaultThreshold : ℚ := 7/10

/-- Field selection for the question: the first ambiguous field in schema
property order, else the first field with a validation error, else the
first missing required field in schema order. -/
def selectField (schema : FormSchema) (ambiguousFields : List String)
    (errorFields : List String) (missingRequired : List String) : Option String :=
  let order := schema.properties.map Prod.fst
  match order.find? (fun n => ambiguousFields.contains n) with
  | some f => some f
  | Option.none =>
    match errorFields with
    | e :: _ => some e
    | [] => order.find? (fun n => missingRequired.contains n)

/-- Question text from a per-field template keyed by field name, falling
back to a generic please-provide template. -/
def questionFor (templates : List (String × String)) (field : Option String) : String :=
  match field with
  | some f =>
    match templates.find? (fun t => t.1 == f) with
    | some t => t.2
    | Option.none => "please provide " ++ f
  | Option.none => "please provide more details"

/-- Modelled from the spec: ClarificationPolicy.decide (§4.6 of the
architecture notes; no backend source under the tree).  A question is
asked when any of: confidence below the configured threshold, a
non-empty ambiguity set, a validation error on a field touched this
turn, or a still-missing required field; otherwise the turn ends with no
question. -/
def decide (threshold confidence : ℚ) (fieldErrors : List (String × String))
    (touched : List String) (ambiguousFields : List String)
    (missingRequired : List String) (schema : FormSchema)
    (templates : List (String × String)) : Option String :=
  let touchedErrors := fieldErrors.filter (fun e => touched.contains e.1)
  if confidence < threshold ∨ ambiguousFields ≠ [] ∨ touchedErrors ≠ [] ∨
      missingRequired ≠ [] then
    some (questionFor templates
      (selectField schema ambiguousFields (touchedErrors.map Prod.fst) missingRequired))
  else Option.none

end ClarificationPolicy

/-- Regex of the phone-number pattern of the equipment form: one literal
zero followed by nine digits, anchored. -/
def phonePattern : Regex := Regex.cat (Regex.lit '0') (Regex.rep Regex.digit 9)

/-- Source text of the phone-number pattern. -/
def phonePatternText : String := "^0[0-9]\x7b9\x7d$"

/-- Property spec of the phoneNumber field: a string matching the
phone-number pattern. -/
def phoneSpec : PropertySpec :=
  PropertySpec.mk Kind.str (some (phonePatternText, phonePattern)) Option.none
    Option.none Option.none Option.none Option.none Option.none Option.none
    Format.none Option.none []

/-- Plain unconstrained string property spec. -/
def strSpec : PropertySpec :=
  PropertySpec.mk Kind.str Option.none Option.none Option.none Option.none
    Option.none Option.none Option.none Option.none Format.none Option.none []

/-- Schema with one required phoneNumber field. -/
def phoneSchema : FormSchema := ⟨[("phoneNumber", phoneSpec)], ["phoneNumber"]⟩

/-- Single candidate with label A. -/
def candA : Candidate := ⟨"A", "A"⟩

/-- Sample form state holding the one-element array [5] under key a. -/
def fdArr : FormData := [("a", Value.vArr [Value.vNum 5])]

theorem getKey_setKey_self (fd : FormData) (k : String) (v : Value) :
    getKey (setKey fd k v) k = some v := by
  induction fd with
  | nil => simp [setKey, getKey]
  | cons p rest ih =>
    obtain ⟨a, w⟩ := p
    by_cases h : a = k
    · simp [setKey, getKey, h]
    · simp [setKey, getKey, h, ih]

theorem getKey_setKey_ne (fd : FormData) (k b : String) (v : Value) (h : b ≠ k) :
    getKey (setKey fd k v) b = getKey fd b := by
  have hkb : ¬ k = b := fun hh => h hh.symm
  induction fd with
  | nil => simp [setKey, getKey, hkb]
  | cons p rest ih =>
    obtain ⟨a, w⟩ := p
    by_cases ha : a = k
    · subst ha
      simp [setKey, getKey, hkb]
    · simp [setKey, getKey, ha, ih]

theorem setKey_setKey_same (fd : FormData) (k : String) (v w : Value) :
    setKey (setKey fd k v) k w = setKey fd k w := by
  induction fd with
  | nil => simp [setKey]
  | cons p rest ih =>
    obtain ⟨a, u⟩ := p
    by_cases h : a = k
    · simp [setKey, h]
    · simp [setKey, h, ih]

/-- End-to-end scenario B of the spec: merging equipments[0].quantity = 2
into a form holding only fullName creates the array and its object
element while keeping fullName. -/
theorem update_form_data_scenario_B :
    update_form_data [("fullName", Value.vStr "John Doe")]
      [Seg.mk "equipments" (some 0), Seg.mk "quantity" Option.none] (Value.vNum 2) =
    Except.ok [("fullName", Value.vStr "John Doe"),
               ("equipments", Value.vArr [Value.vObj [("quantity", Value.vNum 2)]])] := by
  rfl

theorem getPath_key_absent (fd : FormData) (a : String) (ib : Option Nat)
    (q2 : FieldPath) (hg : getKey fd a = Option.none) :
    getPath fd (⟨a, ib⟩ :: q2) = Option.none := by
  cases ib with
  | none => simp only [getPath, valPath]; rw [hg]
  | some j => simp only [getPath, valPath]; rw [hg]

theorem getPath_key_present (fd : FormData) (a : String) (u : Value)
    (q2 : FieldPath) (hg : getKey fd a = some u) :
    getPath fd (⟨a, Option.none⟩ :: q2) = valPath u q2 := by
  simp only [getPath, valPath]; rw [hg]

theorem getPath_key_arr (fd : FormData) (a : String) (xs : List Value) (j : Nat)
    (q2 : FieldPath) (hg : getKey fd a = some (Value.vArr xs)) :
    getPath fd (⟨a, some j⟩ :: q2) =
      (if h : j < xs.length then valPath (xs.get ⟨j, h⟩) q2 else Option.none) := by
  simp only [getPath, valPath]; rw [hg]

theorem getPath_congr_head (fd gd : FormData) (b : String) (ib : Option Nat)
    (q2 : FieldPath) (h : getKey fd b = getKey gd b) :
    getPath fd (⟨b, ib⟩ :: q2) = getPath gd (⟨b, ib⟩ :: q2) := by
  cases ib with
  | none => simp only [getPath, valPath]; rw [h]
  | some j => simp only [getPath, valPath]; rw [h]

theorem getPath_nil_state (t : Seg) (q2 : FieldPath) :
    getPath ([] : FormData) (t :: q2) = Option.none := by
  obtain ⟨b, ib⟩ := t
  cases ib with
  | none => simp only [getPath, valPath]; rfl
  | some j => simp only [getPath, valPath]; rfl

theorem divergesB_ne_nil {p q : FieldPath} (h : divergesB p q = true) :
    p ≠ [] ∧ q ≠ [] := by
  cases p with
  | nil => simp [divergesB] at h
  | cons s p2 =>
    cases q with
    | nil => simp [divergesB] at h
    | cons t q2 => exact ⟨List.cons_ne_nil _ _, List.cons_ne_nil _ _⟩

theorem except_map_ok {γ α β : Type} (f : α → β) (x : Except γ α) (b : β)
    (h : Except.map f x = Except.ok b) : ∃ a, x = Except.ok a ∧ b = f a := by
  cases x with
  | error e => simp [Except.map] at h
  | ok a =>
    simp only [Except.map, Except.ok.injEq] at h
    exact ⟨a, rfl, h.symm⟩

/-- C10: isFieldFilled returns true for every number and every boolean
value (including 0 and false), and returns false exactly when the value
is null, undefined, a string whose trimmed length is zero, an empty
array, or an object with no own keys. -/
theorem isFieldFilled_characterization :
    (∀ q : ℚ, isFieldFilled (Value.vNum q) = true) ∧
    (∀ b : Bool, isFieldFilled (Value.vBool b) = true) ∧
    (∀ v : Value, isFieldFilled v = false ↔
      (v = Value.vNull ∨ v = Value.vUndefined ∨
       (∃ s, v = Value.vStr s ∧ s.trim.length = 0) ∨
       v = Value.vArr [] ∨ v = Value.vObj [])) := by
  refine ⟨fun q => rfl, fun b => rfl, fun v => ?_⟩
  cases v with
  | vNull => simp [isFieldFilled]
  | vUndefined => simp [isFieldFilled]
  | vStr s => simp [isFieldFilled]
  | vNum q => simp [isFieldFilled]
  | vBool b => simp [isFieldFilled]
  | vArr xs => cases xs <;> simp [isFieldFilled]
  | vObj fs => cases fs <;> simp [isFieldFilled]

/-- C4: the validator applies its rules in a fixed order and
short-circuits on the first failing rule; validating phoneNumber "123"
against the pattern yields exactly one PatternMismatch error echoing the
pattern text, and validating phoneNumber "0812345678" yields valid. -/
theorem validate_field_phone_scenario :
    validate_field "phoneNumber" (some (Value.vStr "123")) phoneSchema =
      VResult.patternMismatch phonePatternText ∧
    validate_field "phoneNumber" (some (Value.vStr "0812345678")) phoneSchema =
      VResult.valid := by
  constructor
  · simp [validate_field, phoneSchema, lookupSpec, phoneSpec, validateValue, stringChecks,
      matchesKind, isEmptyValue, rmatch]
    decide
  · simp [validate_field, phoneSchema, lookupSpec, phoneSpec, validateValue, stringChecks,
      matchesKind, isEmptyValue, rmatch]
    decide

/-- C7: for every (value, PropertySpec) pair — including null,
wrong-typed and nested values — the validator is total: it returns
exactly one outcome, either valid or one single specific error kind, and
never throws (it is a total function into the closed outcome type). -/
theorem validateValue_total :
    (∀ (v : Value) (ps : PropertySpec),
      validateValue v ps = VResult.valid ∨
      validateValue v ps = VResult.missingRequired ∨
      validateValue v ps = VResult.typeMismatch ∨
      (∃ pat, validateValue v ps = VResult.patternMismatch pat) ∨
      validateValue v ps = VResult.notInEnum ∨
      validateValue v ps = VResult.lengthOutOfRange ∨
      validateValue v ps = VResult.rangeOutOfRange ∨
      validateValue v ps = VResult.arityOutOfRange ∨
      validateValue v ps = VResult.formatInvalid) ∧
    (∀ (name : String) (v : Option Value) (schema : FormSchema),
      validate_field name v schema = VResult.valid ∨
      validate_field name v schema = VResult.missingRequired ∨
      validate_field name v schema = VResult.typeMismatch ∨
      (∃ pat, validate_field name v schema = VResult.patternMismatch pat) ∨
      validate_field name v schema = VResult.notInEnum ∨
      validate_field name v schema = VResult.lengthOutOfRange ∨
      validate_field name v schema = VResult.rangeOutOfRange ∨
      validate_field name v schema = VResult.arityOutOfRange ∨
      validate_field name v schema = VResult.formatInvalid) := by
  constructor
  · intro v ps
    cases h : validateValue v ps <;> simp [h]
  · intro name v schema
    cases h : validate_field name v schema <;> simp [h]

/-- C8: a query exactly case-insensitively equal to a candidate's label
is assigned confidence 1.0; in particular resolving "A" against the
single candidate labelled "A" at threshold 0.6 yields exactly one match
with confidence 1.0. -/
theorem resolve_exact_match :
    (∀ (q : String) (c : Candidate),
      q.toLower = c.label.toLower → scoreCandidate q c = 1) ∧
    resolve "A" [candA] (3/5 : ℚ) = [FuzzyMatch.mk "A" "A" 1] := by
  constructor
  · intro q c h
    simp [scoreCandidate, h]
  · norm_num [resolve, scoreCandidate, candA, sortDesc, insertDesc]

/-- Witness of C8 at the concrete instance of the claim. -/
theorem resolve_exact_match_witness :
    ("A" : String).toLower = candA.label.toLower ∧ scoreCandidate "A" candA = 1 :=
  ⟨rfl, resolve_exact_match.1 "A" candA rfl⟩

theorem foldl_min_le_init (xs : List ℚ) : ∀ acc : ℚ, xs.foldl min acc ≤ acc := by
  induction xs with
  | nil => intro acc; simp
  | cons y ys ih =>
    intro acc
    exact le_trans (ih (min acc y)) (min_le_left _ _)

theorem foldl_min_le_mem (xs : List ℚ) : ∀ (acc c : ℚ), c ∈ xs → xs.foldl min acc ≤ c := by
  induction xs with
  | nil => intro _ _ h; cases h
  | cons y ys ih =>
    intro acc c hc
    rcases List.mem_cons.mp hc with h | h
    · subst h
      exact le_trans (foldl_min_le_init ys (min acc c)) (min_le_right _ _)
    · exact ih (min acc y) c h

theorem foldl_min_mem (xs : List ℚ) :
    ∀ acc : ℚ, xs.foldl min acc = acc ∨ xs.foldl min acc ∈ xs := by
  induction xs with
  | nil => intro acc; exact Or.inl rfl
  | cons y ys ih =>
    intro acc
    rcases ih (min acc y) with h | h
    · rcases min_choice acc y with hm | hm
      · exact Or.inl (by rw [List.foldl_cons, h, hm])
      · exact Or.inr (by rw [List.foldl_cons, h, hm]; exact List.mem_cons_self _ _)
    · exact Or.inr (List.mem_cons_of_mem _ h)

theorem listMinQ_le (x : ℚ) (xs : List ℚ) : ∀ c ∈ x :: xs, listMinQ (x :: xs) ≤ c := by
  intro c hc
  rcases List.mem_cons.mp hc with h | h
  · subst h; exact foldl_min_le_init xs c
  · exact foldl_min_le_mem xs x c h

theorem listMinQ_mem (x : ℚ) (xs : List ℚ) : listMinQ (x :: xs) ∈ x :: xs := by
  rcases foldl_min_mem xs x with h | h
  · rw [listMinQ, h]; exact List.mem_cons_self _ _
  · exact List.mem_cons_of_mem _ h

/-- C2: an ExtractionResult adapted from raw extractor output whose
fields all overlap the schema (n ≥ 1 of them) has aggregate confidence
equal to the minimum — not the average — of the per-field confidences:
it is the fold-min of the reported confidences, bounded above by each of
them, and is itself one of them. -/
theorem adapt_confidence_min (raw : RawOutput) (schema : FormSchema)
    (hne : raw.fields ≠ [])
    (hov : ∀ f ∈ raw.fields, (lookupSpec schema f.name).isSome = true) :
    (adapt raw schema).confidence = listMinQ (raw.fields.map RawField.confidence) ∧
    (∀ c ∈ raw.fields.map RawField.confidence, (adapt raw schema).confidence ≤ c) ∧
    (adapt raw schema).confidence ∈ raw.fields.map RawField.confidence := by
  have hfilter : raw.fields.filter (fun f => (lookupSpec schema f.name).isSome) = raw.fields :=
    List.filter_eq_self.mpr hov
  have hconf : (adapt raw schema).confidence = listMinQ (raw.fields.map RawField.confidence) := by
    simp only [adapt, hfilter]
    cases hc : raw.fields with
    | nil => exact absurd hc hne
    | cons f0 rest => simp
  refine ⟨hconf, ?_, ?_⟩
  · intro c hcmem
    rw [hconf]
    cases hc : raw.fields with
    | nil => exact absurd hc hne
    | cons f0 rest =>
      rw [hc] at hcmem
      exact listMinQ_le _ _ c (by simpa using hcmem)
  · rw [hconf]
    cases hc : raw.fields with
    | nil => exact absurd hc hne
    | cons f0 rest =>
      simpa using listMinQ_mem (f0.confidence) (rest.map RawField.confidence)

/-- Witness of C2: per-field confidences [0.9, 0.4, 0.8] on a schema
containing all three fields yield aggregate confidence 0.4. -/
theorem adapt_confidence_min_witness :
    (RawOutput.mk [RawField.mk "a" (Value.vStr "x") (9/10),
                   RawField.mk "b" (Value.vStr "y") (2/5),
                   RawField.mk "c" (Value.vStr "z") (4/5)] []).fields ≠ [] ∧
    (adapt (RawOutput.mk [RawField.mk "a" (Value.vStr "x") (9/10),
                          RawField.mk "b" (Value.vStr "y") (2/5),
                          RawField.mk "c" (Value.vStr "z") (4/5)] [])
      (FormSchema.mk [("a", strSpec), ("b", strSpec), ("c", strSpec)] [])).confidence =
      (2/5 : ℚ) := by
  constructor
  · simp
  · have h := (adapt_confidence_min
      (RawOutput.mk [RawField.mk "a" (Value.vStr "x") (9/10),
                     RawField.mk "b" (Value.vStr "y") (2/5),
                     RawField.mk "c" (Value.vStr "z") (4/5)] [])
      (FormSchema.mk [("a", strSpec), ("b", strSpec), ("c", strSpec)] [])
      (by simp)
      (by intro f hf; fin_cases hf <;> simp [lookupSpec])).1
    rw [h]
    norm_num [listMinQ]

/-- C5: ClarificationPolicy.decide returns a clarifying question if and
only if, after the merge step, the confidence is below the configured
threshold, or the ambiguity set is non-empty, or a field touched this
turn has a validation error, or a required field is still missing;
otherwise it returns no question. -/
theorem clarification_decide_iff (threshold confidence : ℚ)
    (fieldErrors : List (String × String)) (touched ambiguousFields missingRequired : List String)
    (schema : FormSchema) (templates : List (String × String)) :
    (ClarificationPolicy.decide threshold confidence fieldErrors touched ambiguousFields
        missingRequired schema templates).isSome = true ↔
      (confidence < threshold ∨ ambiguousFields ≠ [] ∨
        (∃ e ∈ fieldErrors, e.1 ∈ touched) ∨ missingRequired ≠ []) := by
  have hfe : (fieldErrors.filter (fun e => touched.contains e.1)) ≠ [] ↔
      (∃ e ∈ fieldErrors, e.1 ∈ touched) := by
    rw [ne_eq, List.filter_eq_nil_iff]
    push_neg
    simp
  rw [ClarificationPolicy.decide]
  split
  case isTrue h =>
    simp only [Option.isSome_some, true_iff]
    rcases h with h | h | h | h
    · exact Or.inl h
    · exact Or.inr (Or.inl h)
    · exact Or.inr (Or.inr (Or.inl (hfe.mp h)))
    · exact Or.inr (Or.inr (Or.inr h))
  case isFalse h =>
    simp only [Option.isSome_none, Bool.false_eq_true, false_iff]
    push_neg at h
    intro hcon
    rcases hcon with hc | hc | hc | hc
    · exact absurd hc (by simpa using h.1)
    · exact hc h.2.1
    · exact hc.elim (fun e he => by
        have := hfe.mpr ⟨e, he⟩
        exact this h.2.2.1)
    · exact hc h.2.2.2

theorem jsRound_nonneg (q : ℚ) (h : 0 ≤ q) : 0 ≤ jsRound q := by
  rw [jsRound]
  exact Int.le_floor.mpr (by push_cast; linarith)

/-- C9: with at least one required field, calculateFormProgress returns
percentage min(100, round(100 · filledRequiredFields / requiredFields)),
an integer between 0 and 100 inclusive, and appending a filled
non-required field does not change it. -/
theorem calculateFormProgress_spec (fd : FormData) (schema : FormSchema)
    (hreq : schema.required ≠ []) :
    (calculateFormProgress fd schema).percentage =
      min 100 (jsRound (100 * ((calculateFormProgress fd schema).filledRequiredFields : ℚ) /
        ((calculateFormProgress fd schema).requiredFields : ℚ))) ∧
    0 ≤ (calculateFormProgress fd schema).percentage ∧
    (calculateFormProgress fd schema).percentage ≤ 100 ∧
    (∀ (name : String) (v : Value), name ∉ schema.required →
      (calculateFormProgress (fd ++ [(name, v)]) schema).percentage =
        (calculateFormProgress fd schema).percentage) := by
  have hpos : 0 < schema.required.length := List.length_pos.mpr hreq
  have hproj : ∀ gd : FormData, (calculateFormProgress gd schema).percentage =
      min (jsRound
        (((gd.filter (fun kv => isFieldFilled kv.2 && schema.required.contains kv.1)).length : ℚ) /
          (schema.required.length : ℚ) * 100)) 100 := by
    intro gd
    simp only [calculateFormProgress, if_pos hpos]
  have hfr : ∀ gd : FormData, (calculateFormProgress gd schema).filledRequiredFields =
      (gd.filter (fun kv => isFieldFilled kv.2 && schema.required.contains kv.1)).length := by
    intro gd
    simp only [calculateFormProgress]
  have hrf : (calculateFormProgress fd schema).requiredFields = schema.required.length := by
    simp only [calculateFormProgress]
  refine ⟨?_, ?_, ?_, ?_⟩
  · rw [hproj, hfr, hrf, min_comm]
    congr 2
    ring
  · rw [hproj]
    refine le_min ?_ (by norm_num)
    exact jsRound_nonneg _ (by positivity)
  · rw [hproj]
    exact min_le_right _ _
  · intro name v hname
    have hcontains : schema.required.contains name = false := by
      simpa using hname
    have hsingle : List.filter (fun kv => isFieldFilled kv.2 && schema.required.contains kv.1)
        [(name, v)] = [] := by
      simp only [List.filter, hcontains, Bool.and_false]
    rw [hproj, hproj, List.filter_append, hsingle, List.append_nil]

/-- Witness of C9 at a concrete one-required-field schema. -/
theorem calculateFormProgress_spec_witness :
    (FormSchema.mk [("a", strSpec)] ["a"]).required ≠ [] ∧
    0 ≤ (calculateFormProgress [("a", Value.vStr "x")] (FormSchema.mk [("a", strSpec)] ["a"])).percentage :=
  ⟨by simp, (calculateFormProgress_spec [("a", Value.vStr "x")]
      (FormSchema.mk [("a", strSpec)] ["a"]) (by simp)).2.1⟩

/-- C1: against the current array xs stored under the segment name, an
array segment with index i replaces in place when i < length, appends
when i = length, and fails with PathResolutionError when i > length —
for terminal and non-terminal paths alike, so the merger never silently
pads the array with placeholder elements. -/
theorem update_form_data_array_index (fd : FormData) (name : String)
    (xs : List Value) (i : Nat) (v : Value)
    (hx : getKey fd name = some (Value.vArr xs)) :
    (∀ h : i < xs.length,
      update_form_data fd [Seg.mk name (some i)] v =
        Except.ok (setKey fd name
          (Value.vArr (xs.set i (terminalSet (some (xs.get ⟨i, h⟩)) v))))) ∧
    (i = xs.length →
      update_form_data fd [Seg.mk name (some i)] v =
        Except.ok (setKey fd name (Value.vArr (xs ++ [v])))) ∧
    (∀ rest : FieldPath, xs.length < i →
      update_form_data fd (Seg.mk name (some i) :: rest) v =
        Except.error (MergeError.pathResolutionError "array index too large")) := by
  have ha : arrAt fd name = some xs := by simp [arrAt, hx]
  refine ⟨?_, ?_, ?_⟩
  · intro h
    simp only [update_form_data, ha, h, dif_pos]
  · intro h
    subst h
    simp only [update_form_data, ha]
    rw [dif_neg (lt_irrefl _)]
    simp
  · intro rest h
    have h1 : ¬ i < xs.length := by omega
    have h2 : ¬ i = xs.length := by omega
    cases rest with
    | nil => simp only [update_form_data, ha, h1, dif_neg, not_false_iff, h2, if_neg]
    | cons s rest2 => simp only [update_form_data, ha, h1, dif_neg, not_false_iff, h2, if_neg]

/-- Witness of C1: appending at i = length and failing at i > length on
a concrete one-element array. -/
theorem update_form_data_array_index_witness :
    getKey fdArr "a" = some (Value.vArr [Value.vNum 5]) ∧
    update_form_data fdArr [Seg.mk "a" (some 1)] (Value.vNum 7) =
      Except.ok [("a", Value.vArr [Value.vNum 5, Value.vNum 7])] ∧
    update_form_data fdArr [Seg.mk "a" (some 2)] (Value.vNum 7) =
      Except.error (MergeError.pathResolutionError "array index too large") := by
  refine ⟨rfl, ?_, ?_⟩
  · exact (update_form_data_array_index fdArr "a" [Value.vNum 5] 1 (Value.vNum 7) rfl).2.1 rfl
  · exact (update_form_data_array_index fdArr "a" [Value.vNum 5] 2 (Value.vNum 7) rfl).2.2
      [] (by decide)

theorem terminalSet_scalar (v : Value) (hs : isScalar v = true) (old : Option Value) :
    terminalSet old v = v := by
  cases old with
  | none => cases v <;> rfl
  | some w => cases w <;> cases v <;> first | rfl | simp [isScalar] at hs

theorem list_set_own (xs : List Value) (i : Nat) (h : i < xs.length) :
    xs.set i (xs.get ⟨i, h⟩) = xs := by
  induction xs generalizing i with
  | nil => simp at h
  | cons x rest ih =>
    cases i with
    | zero => rfl
    | succ n =>
      have hn := ih n (by simpa using h)
      simp only [List.get_eq_getElem] at hn
      simp [List.set, hn]

/-- C6: merging a scalar value at a path is idempotent: after a
successful merge, repeating the very same merge succeeds and returns the
same form state unchanged. -/
theorem update_form_data_scalar_idempotent :
    ∀ (p : FieldPath) (fd fd' : FormData) (v : Value),
      isScalar v = true → update_form_data fd p v = Except.ok fd' →
      update_form_data fd' p v = Except.ok fd' := by
  intro p
  induction p with
  | nil =>
    intro fd fd' v hs h
    simp [update_form_data] at h
  | cons s p2 ih =>
    intro fd fd' v hs h
    obtain ⟨a, ia⟩ := s
    cases ia with
    | none =>
      cases p2 with
      | nil =>
        simp only [update_form_data] at h ⊢
        rw [terminalSet_scalar v hs] at h
        injection h with h2
        subst h2
        rw [getKey_setKey_self, terminalSet_scalar v hs, setKey_setKey_same]
      | cons s2 p3 =>
        simp only [update_form_data] at h ⊢
        cases hg : getKey fd a with
        | none =>
          simp only [hg] at h
          obtain ⟨o2, ho2, rfl⟩ := except_map_ok _ _ _ h
          simp only [getKey_setKey_self]
          rw [ih [] o2 v hs ho2]
          simp [Except.map, setKey_setKey_same]
        | some w =>
          cases w with
          | vObj o =>
            simp only [hg] at h
            obtain ⟨o2, ho2, rfl⟩ := except_map_ok _ _ _ h
            simp only [getKey_setKey_self]
            rw [ih o o2 v hs ho2]
            simp [Except.map, setKey_setKey_same]
          | vNull => simp only [hg] at h; exact absurd h (by simp)
          | vUndefined => simp only [hg] at h; exact absurd h (by simp)
          | vStr sx => simp only [hg] at h; exact absurd h (by simp)
          | vNum qx => simp only [hg] at h; exact absurd h (by simp)
          | vBool bx => simp only [hg] at h; exact absurd h (by simp)
          | vArr xsx => simp only [hg] at h; exact absurd h (by simp)
    | some i =>
      cases harr : arrAt fd a with
      | none =>
        cases p2 with
        | nil => simp [update_form_data, harr] at h
        | cons s2 p3 => simp [update_form_data, harr] at h
      | some xs =>
        cases p2 with
        | nil =>
          simp only [update_form_data, harr] at h
          split at h
          next hlt =>
            rw [terminalSet_scalar v hs] at h
            injection h with h2
            subst h2
            have harr2 : arrAt (setKey fd a (Value.vArr (xs.set i v))) a =
                some (xs.set i v) := by
              simp [arrAt, getKey_setKey_self]
            have hlen : i < (xs.set i v).length := by simpa using hlt
            simp only [update_form_data, harr2]
            rw [dif_pos hlen, terminalSet_scalar v hs, List.set_set, setKey_setKey_same]
          next hnlt =>
            split at h
            next heq =>
              subst heq
              injection h with h2
              subst h2
              have harr2 : arrAt (setKey fd a (Value.vArr (xs ++ [v]))) a =
                  some (xs ++ [v]) := by
                simp [arrAt, getKey_setKey_self]
              have hlen : xs.length < (xs ++ [v]).length := by simp
              simp only [update_form_data, harr2]
              rw [dif_pos hlen, terminalSet_scalar v hs]
              have hget : (xs ++ [v]).get ⟨xs.length, hlen⟩ = v := by
                simp [List.get_eq_getElem, List.getElem_concat_length]
              have hset : (xs ++ [v]).set xs.length v = xs ++ [v] := by
                have := list_set_own (xs ++ [v]) xs.length hlen
                rw [hget] at this
                exact this
              rw [hset, setKey_setKey_same]
            next hne => exact absurd h (by simp)
        | cons s2 p3 =>
          simp only [update_form_data, harr] at h
          split at h
          next hlt =>
            cases he : xs.get ⟨i, hlt⟩ with
            | vObj o =>
              rw [he] at h
              obtain ⟨o2, ho2, rfl⟩ := except_map_ok _ _ _ h
              have harr2 : arrAt (setKey fd a (Value.vArr (xs.set i (Value.vObj o2)))) a =
                  some (xs.set i (Value.vObj o2)) := by
                simp [arrAt, getKey_setKey_self]
              have hlen : i < (xs.set i (Value.vObj o2)).length := by simpa using hlt
              simp only [update_form_data, harr2]
              rw [dif_pos hlen]
              have hget : (xs.set i (Value.vObj o2)).get ⟨i, hlen⟩ = Value.vObj o2 := by
                simp [List.get_eq_getElem, List.getElem_set_self]
              simp only [hget]
              rw [ih o o2 v hs ho2]
              simp [Except.map, List.set_set, setKey_setKey_same]
            | vNull => rw [he] at h; exact absurd h (by simp)
            | vUndefined => rw [he] at h; exact absurd h (by simp)
            | vStr sx => rw [he] at h; exact absurd h (by simp)
            | vNum qx => rw [he] at h; exact absurd h (by simp)
            | vBool bx => rw [he] at h; exact absurd h (by simp)
            | vArr xsx => rw [he] at h; exact absurd h (by simp)
          next hnlt =>
            split at h
            next heq =>
              subst heq
              obtain ⟨o2, ho2, rfl⟩ := except_map_ok _ _ _ h
              have harr2 : arrAt (setKey fd a (Value.vArr (xs ++ [Value.vObj o2]))) a =
                  some (xs ++ [Value.vObj o2]) := by
                simp [arrAt, getKey_setKey_self]
              have hlen : xs.length < (xs ++ [Value.vObj o2]).length := by simp
              simp only [update_form_data, harr2]
              rw [dif_pos hlen]
              have hget : (xs ++ [Value.vObj o2]).get ⟨xs.length, hlen⟩ = Value.vObj o2 := by
                simp [List.get_eq_getElem, List.getElem_concat_length]
              simp only [hget]
              rw [ih [] o2 v hs ho2]
              have hset : (xs ++ [Value.vObj o2]).set xs.length (Value.vObj o2) =
                  xs ++ [Value.vObj o2] := by
                have := list_set_own (xs ++ [Value.vObj o2]) xs.length hlen
                rw [hget] at this
                exact this
              simp [Except.map, hset, setKey_setKey_same]
            next hne => exact absurd h (by simp)

theorem arrAt_some_cases (fd : FormData) (a : String) (xs : List Value)
    (h : arrAt fd a = some xs) :
    (getKey fd a = Option.none ∧ xs = []) ∨ getKey fd a = some (Value.vArr xs) := by
  cases hg : getKey fd a with
  | none =>
    simp only [arrAt, hg, Option.some.injEq] at h
    exact Or.inl ⟨rfl, h.symm⟩
  | some w =>
    cases w with
    | vArr ys =>
      simp only [arrAt, hg, Option.some.injEq] at h
      subst h
      exact Or.inr rfl
    | vNull => simp [arrAt, hg] at h
    | vUndefined => simp [arrAt, hg] at h
    | vStr s => simp [arrAt, hg] at h
    | vNum q => simp [arrAt, hg] at h
    | vBool b => simp [arrAt, hg] at h
    | vObj o => simp [arrAt, hg] at h

theorem update_arr_ok_shape (fd : FormData) (a : String) (i : Nat) (p2 : FieldPath)
    (v : Value) (fd' : FormData)
    (h : update_form_data fd (Seg.mk a (some i) :: p2) v = Except.ok fd') :
    ∃ xs nxs, arrAt fd a = some xs ∧ fd' = setKey fd a (Value.vArr nxs) ∧
      ((∃ e, i < xs.length ∧ nxs = xs.set i e) ∨
        (i = xs.length ∧ ∃ e, nxs = xs ++ [e])) := by
  cases harr : arrAt fd a with
  | none =>
    cases p2 with
    | nil => simp [update_form_data, harr] at h
    | cons s2 p3 => simp [update_form_data, harr] at h
  | some xs =>
    cases p2 with
    | nil =>
      simp only [update_form_data, harr] at h
      split at h
      next hlt =>
        injection h with h2
        exact ⟨xs, _, rfl, h2.symm, Or.inl ⟨_, hlt, rfl⟩⟩
      next hnlt =>
        split at h
        next heq =>
          injection h with h2
          exact ⟨xs, _, rfl, h2.symm, Or.inr ⟨heq, _, rfl⟩⟩
        next hne => exact absurd h (by simp)
    | cons s2 p3 =>
      simp only [update_form_data, harr] at h
      split at h
      next hlt =>
        cases he : xs.get ⟨i, hlt⟩ with
        | vObj o =>
          rw [he] at h
          obtain ⟨o2, ho2, rfl⟩ := except_map_ok _ _ _ h
          exact ⟨xs, _, rfl, rfl, Or.inl ⟨_, hlt, rfl⟩⟩
        | vNull => rw [he] at h; exact absurd h (by simp)
        | vUndefined => rw [he] at h; exact absurd h (by simp)
        | vStr sx => rw [he] at h; exact absurd h (by simp)
        | vNum qx => rw [he] at h; exact absurd h (by simp)
        | vBool bx => rw [he] at h; exact absurd h (by simp)
        | vArr xsx => rw [he] at h; exact absurd h (by simp)
      next hnlt =>
        split at h
        next heq =>
          obtain ⟨o2, ho2, rfl⟩ := except_map_ok _ _ _ h
          exact ⟨xs, _, rfl, rfl, Or.inr ⟨heq, _, rfl⟩⟩
        next hne => exact absurd h (by simp)

theorem update_ok_setKey (fd : FormData) (a : String) (ia : Option Nat) (p2 : FieldPath)
    (v : Value) (fd' : FormData)
    (h : update_form_data fd (Seg.mk a ia :: p2) v = Except.ok fd') :
    ∃ w, fd' = setKey fd a w := by
  cases ia with
  | none =>
    cases p2 with
    | nil =>
      simp only [update_form_data] at h
      injection h with h2
      exact ⟨_, h2.symm⟩
    | cons s2 p3 =>
      simp only [update_form_data] at h
      cases hg : getKey fd a with
      | none =>
        simp only [hg] at h
        obtain ⟨o2, _, rfl⟩ := except_map_ok _ _ _ h
        exact ⟨_, rfl⟩
      | some w =>
        cases w with
        | vObj o =>
          simp only [hg] at h
          obtain ⟨o2, _, rfl⟩ := except_map_ok _ _ _ h
          exact ⟨_, rfl⟩
        | vNull => simp only [hg] at h; exact absurd h (by simp)
        | vUndefined => simp only [hg] at h; exact absurd h (by simp)
        | vStr sx => simp only [hg] at h; exact absurd h (by simp)
        | vNum qx => simp only [hg] at h; exact absurd h (by simp)
        | vBool bx => simp only [hg] at h; exact absurd h (by simp)
        | vArr xsx => simp only [hg] at h; exact absurd h (by simp)
  | some i =>
    obtain ⟨xs, nxs, _, rfl, _⟩ := update_arr_ok_shape fd a i p2 v fd' h
    exact ⟨_, rfl⟩

theorem frame_arr_ne (fd : FormData) (a : String) (i j : Nat) (xs nxs : List Value)
    (hij : i ≠ j) (harr : arrAt fd a = some xs)
    (hshape : (∃ e, i < xs.length ∧ nxs = xs.set i e) ∨
      (i = xs.length ∧ ∃ e, nxs = xs ++ [e]))
    (q2 : FieldPath) :
    getPath (setKey fd a (Value.vArr nxs)) (Seg.mk a (some j) :: q2) =
      getPath fd (Seg.mk a (some j) :: q2) := by
  rw [getPath_key_arr _ _ nxs j q2 (getKey_setKey_self fd a _)]
  rcases arrAt_some_cases fd a xs harr with ⟨hg, rfl⟩ | hg
  · rw [getPath_key_absent _ _ _ _ hg]
    rcases hshape with ⟨e, hlt, rfl⟩ | ⟨heq, e, rfl⟩
    · simp at hlt
    · have hi0 : i = 0 := by simpa using heq
      rw [dif_neg (by simp; omega)]
  · rw [getPath_key_arr _ _ xs j q2 hg]
    rcases hshape with ⟨e, hlt, rfl⟩ | ⟨heq, e, rfl⟩
    · by_cases hj : j < xs.length
      · rw [dif_pos (by simpa using hj), dif_pos hj]
        congr 1
        simp only [List.get_eq_getElem]
        rw [List.getElem_set_ne hij]
      · rw [dif_neg (by simpa using hj), dif_neg hj]
    · subst heq
      by_cases hj : j < xs.length
      · rw [dif_pos (by simp; omega), dif_pos hj]
        congr 1
        simp only [List.get_eq_getElem]
        rw [List.getElem_append_left]
      · rw [dif_neg (by simp; omega), dif_neg hj]

/-- C3: merge preserves unrelated state: every address diverging from the
merge path — a different root key, a different array index, or a sibling
key inside an object-shaped element on the path — reads bit-for-bit the
same value after the merge as before; merge itself is copy-on-write and
returns a fresh value rather than mutating its input. -/
theorem update_form_data_frame :
    ∀ (p : FieldPath) (fd : FormData) (v : Value) (fd' : FormData),
      update_form_data fd p v = Except.ok fd' →
      ∀ q : FieldPath, divergesB p q = true → getPath fd' q = getPath fd q := by
  intro p
  induction p with
  | nil =>
    intro fd v fd' h q hq
    simp [update_form_data] at h
  | cons s p2 ih =>
    intro fd v fd' h q hq
    obtain ⟨a, ia⟩ := s
    cases q with
    | nil => simp [divergesB] at hq
    | cons t q2 =>
      obtain ⟨b, ib⟩ := t
      by_cases hab : a = b
      · subst hab
        simp only [divergesB, if_true] at hq
        cases ia with
        | none =>
          cases ib with
          | some j => simp at hq
          | none =>
            have hq2 : divergesB p2 q2 = true := hq
            obtain ⟨hp2ne, hq2ne⟩ := divergesB_ne_nil hq2
            have hq2nil : getPath ([] : FormData) q2 = Option.none := by
              cases q2 with
              | nil => exact absurd rfl hq2ne
              | cons t2 q3 => exact getPath_nil_state t2 q3
            cases p2 with
            | nil => exact absurd rfl hp2ne
            | cons s2 p3 =>
              simp only [update_form_data] at h
              cases hg : getKey fd a with
              | none =>
                simp only [hg] at h
                obtain ⟨o2, ho2, rfl⟩ := except_map_ok _ _ _ h
                rw [getPath_key_present _ _ _ _ (getKey_setKey_self fd a _)]
                rw [getPath_key_absent _ _ _ _ hg]
                have hih : getPath o2 q2 = getPath ([] : FormData) q2 :=
                  ih [] v o2 ho2 q2 hq2
                rw [hq2nil] at hih
                exact hih
              | some w =>
                cases w with
                | vObj o =>
                  simp only [hg] at h
                  obtain ⟨o2, ho2, rfl⟩ := except_map_ok _ _ _ h
                  rw [getPath_key_present _ _ _ _ (getKey_setKey_self fd a _)]
                  rw [getPath_key_present _ _ _ _ hg]
                  exact ih o v o2 ho2 q2 hq2
                | vNull => simp only [hg] at h; exact absurd h (by simp)
                | vUndefined => simp only [hg] at h; exact absurd h (by simp)
                | vStr sx => simp only [hg] at h; exact absurd h (by simp)
                | vNum qx => simp only [hg] at h; exact absurd h (by simp)
                | vBool bx => simp only [hg] at h; exact absurd h (by simp)
                | vArr xsx => simp only [hg] at h; exact absurd h (by simp)
        | some i =>
          cases ib with
          | none => simp at hq
          | some j =>
            by_cases hij : i = j
            · subst hij
              have hq2 : divergesB p2 q2 = true := by
                have hq3 : (if i = i then divergesB p2 q2 else true) = true := hq
                simpa using hq3
              obtain ⟨hp2ne, hq2ne⟩ := divergesB_ne_nil hq2
              have hq2nil : getPath ([] : FormData) q2 = Option.none := by
                cases q2 with
                | nil => exact absurd rfl hq2ne
                | cons t2 q3 => exact getPath_nil_state t2 q3
              cases p2 with
              | nil => exact absurd rfl hp2ne
              | cons s2 p3 =>
                cases harr0 : arrAt fd a with
                | none =>
                  simp [update_form_data, harr0] at h
                | some xs =>
                  simp only [update_form_data, harr0] at h
                  split at h
                  next hlt =>
                    cases he : xs.get ⟨i, hlt⟩ with
                    | vObj o =>
                      rw [he] at h
                      obtain ⟨o2, ho2, rfl⟩ := except_map_ok _ _ _ h
                      rw [getPath_key_arr _ _ _ i q2 (getKey_setKey_self fd a _)]
                      rw [dif_pos (show i < (xs.set i (Value.vObj o2)).length by
                        simpa using hlt)]
                      have hel : (xs.set i (Value.vObj o2)).get
                          ⟨i, by simpa using hlt⟩ = Value.vObj o2 := by
                        simp only [List.get_eq_getElem]
                        rw [List.getElem_set_self]
                      rw [hel]
                      rcases arrAt_some_cases fd a xs harr0 with ⟨hg, hxs⟩ | hg
                      · subst hxs; simp at hlt
                      · rw [getPath_key_arr _ _ xs i q2 hg, dif_pos hlt, he]
                        exact ih o v o2 ho2 q2 hq2
                    | vNull => rw [he] at h; exact absurd h (by simp)
                    | vUndefined => rw [he] at h; exact absurd h (by simp)
                    | vStr sx => rw [he] at h; exact absurd h (by simp)
                    | vNum qx => rw [he] at h; exact absurd h (by simp)
                    | vBool bx => rw [he] at h; exact absurd h (by simp)
                    | vArr xsx => rw [he] at h; exact absurd h (by simp)
                  next hnlt =>
                    split at h
                    next heq =>
                      obtain ⟨o2, ho2, rfl⟩ := except_map_ok _ _ _ h
                      rw [getPath_key_arr _ _ _ i q2 (getKey_setKey_self fd a _)]
                      rw [dif_pos (show i < (xs ++ [Value.vObj o2]).length by
                        simp; omega)]
                      have hel : (xs ++ [Value.vObj o2]).get
                          ⟨i, by simp; omega⟩ = Value.vObj o2 := by
                        subst heq
                        simp [List.get_eq_getElem, List.getElem_concat_length]
                      rw [hel]
                      have hih : getPath o2 q2 = getPath ([] : FormData) q2 :=
                        ih [] v o2 ho2 q2 hq2
                      rw [hq2nil] at hih
                      rcases arrAt_some_cases fd a xs harr0 with ⟨hg, hxs⟩ | hg
                      · rw [getPath_key_absent _ _ _ _ hg]
                        exact hih
                      · rw [getPath_key_arr _ _ xs i q2 hg,
                          dif_neg (show ¬ i < xs.length by omega)]
                        exact hih
                    next hne => exact absurd h (by simp)
            · obtain ⟨xs, nxs, harr, rfl, hshape⟩ := update_arr_ok_shape fd a i p2 v fd' h
              exact frame_arr_ne fd a i j xs nxs hij harr hshape q2
      · obtain ⟨w, rfl⟩ := update_ok_setKey fd a ia p2 v fd' h
        exact getPath_congr_head _ _ b ib q2 (getKey_setKey_ne fd a b w (fun hh => hab hh.symm))

/-- Witness of C6: repeating the merge of a scalar at a one-segment path
returns the same state. -/
theorem update_form_data_scalar_idempotent_witness :
    isScalar (Value.vStr "x") = true ∧
    update_form_data [("a", Value.vStr "old")] [Seg.mk "a" Option.none] (Value.vStr "x") =
      Except.ok [("a", Value.vStr "x")] ∧
    update_form_data [("a", Value.vStr "x")] [Seg.mk "a" Option.none] (Value.vStr "x") =
      Except.ok [("a", Value.vStr "x")] :=
  ⟨rfl, rfl, update_form_data_scalar_idempotent [Seg.mk "a" Option.none]
    [("a", Value.vStr "old")] [("a", Value.vStr "x")] (Value.vStr "x") rfl rfl⟩

/-- Witness of C3: merging equipments[0].quantity leaves the sibling root
key fullName unchanged. -/
theorem update_form_data_frame_witness :
    divergesB [Seg.mk "equipments" (some 0), Seg.mk "quantity" Option.none]
      [Seg.mk "fullName" Option.none] = true ∧
    getPath [("fullName", Value.vStr "John Doe"),
             ("equipments", Value.vArr [Value.vObj [("quantity", Value.vNum 2)]])]
      [Seg.mk "fullName" Option.none] =
      getPath [("fullName", Value.vStr "John Doe")] [Seg.mk "fullName" Option.none] := by
  refine ⟨rfl, ?_⟩
  exact update_form_data_frame
    [Seg.mk "equipments" (some 0), Seg.mk "quantity" Option.none]
    [("fullName", Value.vStr "John Doe")] (Value.vNum 2)
    [("fullName", Value.vStr "John Doe"),
     ("equipments", Value.vArr [Value.vObj [("quantity", Value.vNum 2)]])]
    rfl [Seg.mk "fullName" Option.none] rfl
